import Mathlib

/-!
Verification of PyOctaveBand (PyOctave.py): fractional-octave band
frequency generation per ANSI S1.11-2004, Nyquist clipping, decimation
planning and the per-band SPL pipeline.  Real-number semantics stand in
for IEEE doubles; the external scipy primitives (butter, sosfilt,
decimate) are abstracted as explicit parameters, exactly as the spec
treats them (black-box collaborators).
-/

namespace PyOctave

/-- Octave ratio chosen in the source: `G = 10 ** (3 / 10)` (ANSI s1.11, 3.2). -/
noncomputable def G : ℝ := (10 : ℝ) ^ ((3 : ℝ) / 10)

/-- Reference frequency `fr = 1000` Hz (ANSI s1.11, 3.4). -/
noncomputable def fr : ℝ := 1000

/-- Rounding as performed by `np.round`: nearest integer, ties to even. -/
noncomputable def np_round (x : ℝ) : ℤ :=
  if Int.fract x = 1 / 2 then (if Even ⌊x⌋ then ⌊x⌋ else ⌊x⌋ + 1) else round x

/-- Python float modulo by 2, as used in the `b % 2` parity test of the
source; it lies in [0, 2) and is zero exactly on even integers. -/
noncomputable def pymod2 (b : ℝ) : ℝ := b - 2 * ⌊b / 2⌋

/-- Band-edge ratio `G ** (1 / (2 * b))` (source `_bandedge`). -/
noncomputable def bandedge (G b : ℝ) : ℝ := G ^ (1 / (2 * b))

/-- Center-frequency ratio at index `x` (source `_ratio`), branching on the
Python truthiness of `b % 2` exactly as the source does. -/
noncomputable def ratioANSI (G x b : ℝ) : ℝ :=
  if pymod2 b ≠ 0 then G ^ ((x - 30) / b) else G ^ ((2 * x - 59) / (2 * b))

/-- Starting band index (source `_initindex`), solved from ANSI s1.11
eq. 3 (odd b) or eq. 4 (even b); `np.round` returns a float, hence ℝ. -/
noncomputable def initindex (f fr G b : ℝ) : ℝ :=
  if pymod2 b ≠ 0 then
    ((np_round ((b * Real.log (f / fr) + 30 * Real.log G) / Real.log G) : ℤ) : ℝ)
  else
    ((np_round ((2 * b * Real.log (f / fr) + 59 * Real.log G) / (2 * Real.log G)) : ℤ) : ℝ)

/-- The center frequency appended at the k-th loop step of
`getANSIFrequencies` (k = 0 is the initial frequency computed before the
loop; the loop variable is `x0 + k`). -/
noncomputable def freqAt (b x0 : ℝ) (k : ℕ) : ℝ := ratioANSI G (x0 + k) b * fr

/-- Value of the loop variable `freq_x` at the k-th test of the loop
condition: the sentinel 0 before the first iteration, afterwards the
frequency appended by iteration k. -/
noncomputable def sentinel (b x0 : ℝ) : ℕ → ℝ
  | 0 => 0
  | k + 1 => freqAt b x0 (k + 1)

/-- Test counts at which the while loop of `getANSIFrequencies` halts:
the continuation test `freq_x * bandedge G b < fmax` fails. -/
noncomputable def stopSet (b x0 fmax : ℝ) : Set ℕ :=
  {m | fmax ≤ sentinel b x0 m * bandedge G b}

/-- Number of center frequencies built by the while loop of
`getANSIFrequencies`: the loop runs while `freq_x * bandedge G b < fmax`,
so it stops at the least test count m whose `freq_x` fails the
continuation test, having appended indices 1..m after the initial one. -/
noncomputable def numBands (b x0 fmax : ℝ) : ℕ :=
  sInf (stopSet b x0 fmax) + 1

/-- Center-frequency list produced by `getANSIFrequencies`. -/
noncomputable def ansiCenters (fraction fmin fmax : ℝ) : List ℝ :=
  (List.range (numBands fraction (initindex fmin fr G fraction) fmax)).map
    (freqAt fraction (initindex fmin fr G fraction))

/-- Source `getANSIFrequencies fraction [fmin, fmax]`: the center list and
the elementwise lower-edge (`freq / bandedge`) and upper-edge
(`freq * bandedge`) lists. -/
noncomputable def getANSIFrequencies (fraction fmin fmax : ℝ) :
    List ℝ × List ℝ × List ℝ :=
  (ansiCenters fraction fmin fmax,
   (ansiCenters fraction fmin fmax).map (fun f => f / bandedge G fraction),
   (ansiCenters fraction fmin fmax).map (fun f => f * bandedge G fraction))

theorem G_pos : 0 < G := Real.rpow_pos_of_pos (by norm_num) _

theorem one_lt_G : 1 < G := by
  have h : ((1 : ℝ) < 10 ∧ (0 : ℝ) < 3 / 10) ∨ ((10 : ℝ) < 1 ∧ (3 : ℝ) / 10 < 0) :=
    Or.inl ⟨by norm_num, by norm_num⟩
  exact (Real.one_lt_rpow_iff_of_pos (by norm_num)).2 h

theorem bandedge_pos (b : ℝ) : 0 < bandedge G b :=
  Real.rpow_pos_of_pos G_pos _

theorem one_lt_bandedge {b : ℝ} (hb : 0 < b) : 1 < bandedge G b := by
  have h : ((1 : ℝ) < G ∧ 0 < 1 / (2 * b)) ∨ (G < 1 ∧ 1 / (2 * b) < 0) :=
    Or.inl ⟨one_lt_G, by positivity⟩
  exact (Real.one_lt_rpow_iff_of_pos G_pos).2 h

theorem ratioANSI_pos (x b : ℝ) : 0 < ratioANSI G x b := by
  unfold ratioANSI
  split <;> exact Real.rpow_pos_of_pos G_pos _

theorem fr_pos : 0 < fr := by unfold fr; norm_num

theorem freqAt_pos (b x0 : ℝ) (k : ℕ) : 0 < freqAt b x0 k :=
  mul_pos (ratioANSI_pos _ _) fr_pos

theorem one_lt_G_rpow {b : ℝ} (hb : 0 < b) : 1 < G ^ ((1 : ℝ) / b) :=
  (Real.one_lt_rpow_iff_of_pos G_pos).2 (Or.inl ⟨one_lt_G, by positivity⟩)

/-- One loop step multiplies the center frequency by the fixed ratio
`G ^ (1/b)`, in both the odd and the even branch of `_ratio`. -/
theorem freqAt_succ {b : ℝ} (hb : b ≠ 0) (x0 : ℝ) (k : ℕ) :
    freqAt b x0 (k + 1) = freqAt b x0 k * G ^ ((1 : ℝ) / b) := by
  unfold freqAt ratioANSI
  by_cases hc : pymod2 b ≠ 0
  · simp only [if_pos hc]
    have he : (x0 + ((k : ℕ) + 1 : ℕ) - 30) / b = (x0 + k - 30) / b + 1 / b := by
      push_cast
      field_simp
      ring
    rw [he, Real.rpow_add G_pos]
    ring
  · simp only [if_neg hc]
    have he : (2 * (x0 + ((k : ℕ) + 1 : ℕ)) - 59) / (2 * b) =
        (2 * (x0 + k) - 59) / (2 * b) + 1 / b := by
      push_cast
      field_simp
      ring
    rw [he, Real.rpow_add G_pos]
    ring

theorem freqAt_lt_succ {b : ℝ} (hb : 0 < b) (x0 : ℝ) (k : ℕ) :
    freqAt b x0 k < freqAt b x0 (k + 1) := by
  rw [freqAt_succ hb.ne' x0 k]
  exact lt_mul_of_one_lt_right (freqAt_pos b x0 k) (one_lt_G_rpow hb)

theorem freqAt_eq_pow {b : ℝ} (hb : b ≠ 0) (x0 : ℝ) (k : ℕ) :
    freqAt b x0 k = freqAt b x0 0 * (G ^ ((1 : ℝ) / b)) ^ k := by
  induction k with
  | zero => simp
  | succ n ih => rw [freqAt_succ hb x0 n, ih, pow_succ]; ring

/-- The loop of `getANSIFrequencies` terminates: the center frequencies
grow geometrically, so some appended band fails the continuation test. -/
theorem stopSet_nonempty {b : ℝ} (hb : 0 < b) (x0 fmax : ℝ) :
    (stopSet b x0 fmax).Nonempty := by
  have hr : 1 < G ^ ((1 : ℝ) / b) := one_lt_G_rpow hb
  have hc0 : 0 < freqAt b x0 0 * bandedge G b :=
    mul_pos (freqAt_pos b x0 0) (bandedge_pos b)
  obtain ⟨n, hn⟩ := pow_unbounded_of_one_lt
    (fmax / (freqAt b x0 0 * bandedge G b)) hr
  refine ⟨n + 1, ?_⟩
  have h1 : fmax < freqAt b x0 0 * bandedge G b * (G ^ ((1 : ℝ) / b)) ^ n := by
    have := (div_lt_iff₀ hc0).1 hn
    linarith [this]
  have h2 : freqAt b x0 0 * bandedge G b * (G ^ ((1 : ℝ) / b)) ^ n ≤
      freqAt b x0 (n + 1) * bandedge G b := by
    rw [freqAt_eq_pow hb.ne' x0 (n + 1)]
    have hstep : (G ^ ((1 : ℝ) / b)) ^ n ≤ (G ^ ((1 : ℝ) / b)) ^ (n + 1) :=
      pow_le_pow_right₀ (le_of_lt hr) (Nat.le_succ n)
    nlinarith [freqAt_pos b x0 0, bandedge_pos b,
      pow_pos (lt_trans one_pos hr) n]
  show fmax ≤ sentinel b x0 (n + 1) * bandedge G b
  rw [sentinel]
  linarith

theorem zero_not_mem_stopSet {b x0 fmax : ℝ} (hmax : 0 < fmax) :
    0 ∉ stopSet b x0 fmax := by
  intro h
  have : fmax ≤ sentinel b x0 0 * bandedge G b := h
  rw [sentinel] at this
  simp at this
  linarith

theorem one_le_sInf_stopSet {b x0 fmax : ℝ} (hb : 0 < b) (hmax : 0 < fmax) :
    1 ≤ sInf (stopSet b x0 fmax) := by
  rcases Nat.eq_zero_or_pos (sInf (stopSet b x0 fmax)) with h | h
  · exfalso
    exact zero_not_mem_stopSet hmax (h ▸ Nat.sInf_mem (stopSet_nonempty hb x0 fmax))
  · exact h

theorem ansiCenters_length (b fmin fmax : ℝ) :
    (ansiCenters b fmin fmax).length = numBands b (initindex fmin fr G b) fmax := by
  simp [ansiCenters]

theorem ansiCenters_getD {b fmin fmax : ℝ} {k : ℕ}
    (h : k < numBands b (initindex fmin fr G b) fmax) (d : ℝ) :
    (ansiCenters b fmin fmax).getD k d = freqAt b (initindex fmin fr G b) k := by
  unfold ansiCenters
  rw [List.getD_eq_getElem?_getD, List.getElem?_map, List.getElem?_range h]
  rfl

theorem getD_map_of_lt {α β : Type} {l : List α} (f : α → β) {i : ℕ}
    (h : i < l.length) (d : β) (e : α) :
    (l.map f).getD i d = f (l.getD i e) := by
  have h' : i < (l.map f).length := by simpa using h
  rw [List.getD_eq_getElem?_getD, List.getD_eq_getElem?_getD,
    List.getElem?_eq_getElem h', List.getElem?_eq_getElem h]
  simp

theorem sentinel_of_pos {b x0 : ℝ} {k : ℕ} (hk : 1 ≤ k) :
    sentinel b x0 k = freqAt b x0 k := by
  obtain ⟨m, rfl⟩ : ∃ m, k = m + 1 := ⟨k - 1, by omega⟩
  rfl

/-- C10: for every fraction b > 0 and every limits with fmax > 0,
`getANSIFrequencies` returns sequences of length at least 2: the loop
sentinel `freq_x = 0` always passes the first continuation test, so a
second center frequency is appended even when the initial band's upper
edge already reaches fmax; the three sequences have equal length. -/
theorem C10_at_least_two_bands (b fmin fmax : ℝ) (hb : 0 < b) (hmax : 0 < fmax) :
    2 ≤ (getANSIFrequencies b fmin fmax).1.length ∧
    (getANSIFrequencies b fmin fmax).2.1.length =
      (getANSIFrequencies b fmin fmax).1.length ∧
    (getANSIFrequencies b fmin fmax).2.2.length =
      (getANSIFrequencies b fmin fmax).1.length := by
  refine ⟨?_, ?_, ?_⟩
  · rw [show (getANSIFrequencies b fmin fmax).1 = ansiCenters b fmin fmax from rfl,
      ansiCenters_length]
    unfold numBands
    have := @one_le_sInf_stopSet b (initindex fmin fr G b) fmax hb hmax
    omega
  · simp [getANSIFrequencies]
  · simp [getANSIFrequencies]

/-- Witness for C10 at b = 1 and limits [12, 20000]. -/
theorem C10_at_least_two_bands_witness :
    2 ≤ (getANSIFrequencies 1 12 20000).1.length ∧
    (getANSIFrequencies 1 12 20000).2.1.length =
      (getANSIFrequencies 1 12 20000).1.length ∧
    (getANSIFrequencies 1 12 20000).2.2.length =
      (getANSIFrequencies 1 12 20000).1.length :=
  C10_at_least_two_bands 1 12 20000 (by norm_num) (by norm_num)

/-- C5: for every fraction b > 0 the three sequences returned by
`getANSIFrequencies` satisfy `freq_d[i] < freq[i] < freq_u[i]` at every
index, and each sequence is strictly increasing. -/
theorem C5_bandset_invariants (b fmin fmax : ℝ) (hb : 0 < b) :
    (∀ i, i < (getANSIFrequencies b fmin fmax).1.length →
      (getANSIFrequencies b fmin fmax).2.1.getD i 0 <
        (getANSIFrequencies b fmin fmax).1.getD i 0 ∧
      (getANSIFrequencies b fmin fmax).1.getD i 0 <
        (getANSIFrequencies b fmin fmax).2.2.getD i 0) ∧
    (∀ i, i + 1 < (getANSIFrequencies b fmin fmax).1.length →
      (getANSIFrequencies b fmin fmax).1.getD i 0 <
        (getANSIFrequencies b fmin fmax).1.getD (i + 1) 0 ∧
      (getANSIFrequencies b fmin fmax).2.1.getD i 0 <
        (getANSIFrequencies b fmin fmax).2.1.getD (i + 1) 0 ∧
      (getANSIFrequencies b fmin fmax).2.2.getD i 0 <
        (getANSIFrequencies b fmin fmax).2.2.getD (i + 1) 0) := by
  have hc : (getANSIFrequencies b fmin fmax).1 = ansiCenters b fmin fmax := rfl
  have hd : (getANSIFrequencies b fmin fmax).2.1 =
      (ansiCenters b fmin fmax).map (fun f => f / bandedge G b) := rfl
  have hu : (getANSIFrequencies b fmin fmax).2.2 =
      (ansiCenters b fmin fmax).map (fun f => f * bandedge G b) := rfl
  have hlen := ansiCenters_length b fmin fmax
  have hE1 : 1 < bandedge G b := one_lt_bandedge hb
  constructor
  · intro i hi
    rw [hc] at hi ⊢
    rw [hd, hu, getD_map_of_lt _ hi 0 0, getD_map_of_lt _ hi 0 0]
    have hnum : i < numBands b (initindex fmin fr G b) fmax := hlen ▸ hi
    have hpos : 0 < (ansiCenters b fmin fmax).getD i 0 := by
      rw [ansiCenters_getD hnum]
      exact freqAt_pos _ _ _
    exact ⟨div_lt_self hpos hE1, lt_mul_of_one_lt_right hpos hE1⟩
  · intro i hi
    rw [hc] at hi ⊢
    have hnum1 : i + 1 < numBands b (initindex fmin fr G b) fmax := hlen ▸ hi
    have hnum0 : i < numBands b (initindex fmin fr G b) fmax := by omega
    have hi1 : i + 1 < (ansiCenters b fmin fmax).length := hlen ▸ hnum1
    have hi0 : i < (ansiCenters b fmin fmax).length := by omega
    have hmono : (ansiCenters b fmin fmax).getD i 0 <
        (ansiCenters b fmin fmax).getD (i + 1) 0 := by
      rw [ansiCenters_getD hnum0, ansiCenters_getD hnum1]
      exact freqAt_lt_succ hb _ i
    refine ⟨hmono, ?_, ?_⟩
    · rw [hd, getD_map_of_lt _ hi0 0 0, getD_map_of_lt _ hi1 0 0]
      exact (div_lt_div_iff_of_pos_right (lt_trans one_pos hE1)).2 hmono
    · rw [hu, getD_map_of_lt _ hi0 0 0, getD_map_of_lt _ hi1 0 0]
      exact mul_lt_mul_of_pos_right hmono (lt_trans one_pos hE1)

/-- Witness for C5 at b = 1 and limits [12, 20000]. -/
theorem C5_bandset_invariants_witness :
    (∀ i, i < (getANSIFrequencies 1 12 20000).1.length →
      (getANSIFrequencies 1 12 20000).2.1.getD i 0 <
        (getANSIFrequencies 1 12 20000).1.getD i 0 ∧
      (getANSIFrequencies 1 12 20000).1.getD i 0 <
        (getANSIFrequencies 1 12 20000).2.2.getD i 0) ∧
    (∀ i, i + 1 < (getANSIFrequencies 1 12 20000).1.length →
      (getANSIFrequencies 1 12 20000).1.getD i 0 <
        (getANSIFrequencies 1 12 20000).1.getD (i + 1) 0 ∧
      (getANSIFrequencies 1 12 20000).2.1.getD i 0 <
        (getANSIFrequencies 1 12 20000).2.1.getD (i + 1) 0 ∧
      (getANSIFrequencies 1 12 20000).2.2.getD i 0 <
        (getANSIFrequencies 1 12 20000).2.2.getD (i + 1) 0) :=
  C5_bandset_invariants 1 12 20000 (by norm_num)

theorem bandedge_sq (b : ℝ) (hb : b ≠ 0) :
    bandedge G b ^ 2 = G ^ ((1 : ℝ) / b) := by
  unfold bandedge
  rw [← Real.rpow_natCast (G ^ ((1 : ℝ) / (2 * b))) 2, ← Real.rpow_mul G_pos.le]
  congr 1
  push_cast
  field_simp

/-- C6: for every fraction b > 0 and every index of the result of
`getANSIFrequencies`, the ratio `freq_u[i] / freq_d[i]` equals
`bandedge(G,b)^2 = G^(1/b)` exactly, hence in particular within the
1e-9 tolerance the spec allows. -/
theorem C6_edge_ratio_roundtrip (b fmin fmax : ℝ) (hb : 0 < b) :
    (∀ i, i < (getANSIFrequencies b fmin fmax).1.length →
      (getANSIFrequencies b fmin fmax).2.2.getD i 0 /
        (getANSIFrequencies b fmin fmax).2.1.getD i 0 = bandedge G b ^ 2 ∧
      |(getANSIFrequencies b fmin fmax).2.2.getD i 0 /
        (getANSIFrequencies b fmin fmax).2.1.getD i 0 - bandedge G b ^ 2| ≤ 1e-9) ∧
    bandedge G b ^ 2 = G ^ ((1 : ℝ) / b) := by
  have hc : (getANSIFrequencies b fmin fmax).1 = ansiCenters b fmin fmax := rfl
  have hd : (getANSIFrequencies b fmin fmax).2.1 =
      (ansiCenters b fmin fmax).map (fun f => f / bandedge G b) := rfl
  have hu : (getANSIFrequencies b fmin fmax).2.2 =
      (ansiCenters b fmin fmax).map (fun f => f * bandedge G b) := rfl
  have hlen := ansiCenters_length b fmin fmax
  refine ⟨?_, bandedge_sq b hb.ne'⟩
  intro i hi
  rw [hc] at hi
  have hnum : i < numBands b (initindex fmin fr G b) fmax := hlen ▸ hi
  have hpos : 0 < (ansiCenters b fmin fmax).getD i 0 := by
    rw [ansiCenters_getD hnum]
    exact freqAt_pos _ _ _
  have hE : (0 : ℝ) < bandedge G b := bandedge_pos b
  have hcancel : ∀ c E : ℝ, c ≠ 0 → E ≠ 0 → c * E / (c / E) = E ^ 2 := by
    intro c E hc0 hE0
    field_simp
    ring
  have heq : (getANSIFrequencies b fmin fmax).2.2.getD i 0 /
      (getANSIFrequencies b fmin fmax).2.1.getD i 0 = bandedge G b ^ 2 := by
    rw [hd, hu, getD_map_of_lt _ hi 0 0, getD_map_of_lt _ hi 0 0]
    exact hcancel _ _ (ne_of_gt hpos) (ne_of_gt hE)
  refine ⟨heq, ?_⟩
  rw [heq, sub_self, abs_zero]
  norm_num

/-- Witness for C6 at b = 1 and limits [12, 20000]. -/
theorem C6_edge_ratio_roundtrip_witness :
    (∀ i, i < (getANSIFrequencies 1 12 20000).1.length →
      (getANSIFrequencies 1 12 20000).2.2.getD i 0 /
        (getANSIFrequencies 1 12 20000).2.1.getD i 0 = bandedge G 1 ^ 2 ∧
      |(getANSIFrequencies 1 12 20000).2.2.getD i 0 /
        (getANSIFrequencies 1 12 20000).2.1.getD i 0 - bandedge G 1 ^ 2| ≤ 1e-9) ∧
    bandedge G 1 ^ 2 = G ^ ((1 : ℝ) / 1) :=
  C6_edge_ratio_roundtrip 1 12 20000 (by norm_num)

/-- C1: for b > 0 and fmax > 0 the generator computes the first center
frequency from the starting index, then appends `ratio(x0 + k) * fr` for
k = 1..n, where n is the first appended band whose upper edge
`freq * bandedge` reaches or exceeds fmax; that band is the last entry
of the list and nothing beyond it is appended. -/
theorem C1_loop_stop (b fmin fmax : ℝ) (hb : 0 < b) (hmax : 0 < fmax) :
    ∃ n : ℕ, 1 ≤ n ∧
      (getANSIFrequencies b fmin fmax).1.length = n + 1 ∧
      (∀ k, k ≤ n → (getANSIFrequencies b fmin fmax).1.getD k 0 =
        ratioANSI G (initindex fmin fr G b + k) b * fr) ∧
      fmax ≤ (getANSIFrequencies b fmin fmax).2.2.getD n 0 ∧
      (∀ k, 1 ≤ k → k < n → (getANSIFrequencies b fmin fmax).2.2.getD k 0 < fmax) := by
  have hc : (getANSIFrequencies b fmin fmax).1 = ansiCenters b fmin fmax := rfl
  have hu : (getANSIFrequencies b fmin fmax).2.2 =
      (ansiCenters b fmin fmax).map (fun f => f * bandedge G b) := rfl
  have hlen := ansiCenters_length b fmin fmax
  refine ⟨sInf (stopSet b (initindex fmin fr G b) fmax),
    one_le_sInf_stopSet hb hmax, ?_, ?_, ?_, ?_⟩
  · rw [hc, hlen]
    rfl
  · intro k hk
    have hnum : k < numBands b (initindex fmin fr G b) fmax := by
      unfold numBands
      omega
    rw [hc, ansiCenters_getD hnum]
    rfl
  · have hmem : sInf (stopSet b (initindex fmin fr G b) fmax) ∈
        stopSet b (initindex fmin fr G b) fmax :=
      Nat.sInf_mem (stopSet_nonempty hb _ fmax)
    have h1 : 1 ≤ sInf (stopSet b (initindex fmin fr G b) fmax) :=
      one_le_sInf_stopSet hb hmax
    have hsen : fmax ≤ sentinel b (initindex fmin fr G b)
        (sInf (stopSet b (initindex fmin fr G b) fmax)) * bandedge G b := hmem
    rw [sentinel_of_pos h1] at hsen
    have hnum : sInf (stopSet b (initindex fmin fr G b) fmax) <
        numBands b (initindex fmin fr G b) fmax := by
      unfold numBands
      omega
    have hi : sInf (stopSet b (initindex fmin fr G b) fmax) <
        (ansiCenters b fmin fmax).length := hlen ▸ hnum
    rw [hu, getD_map_of_lt _ hi 0 0, ansiCenters_getD hnum]
    exact hsen
  · intro k hk1 hkn
    have hnotmem : k ∉ stopSet b (initindex fmin fr G b) fmax :=
      Nat.not_mem_of_lt_sInf hkn
    have hlt : sentinel b (initindex fmin fr G b) k * bandedge G b < fmax :=
      lt_of_not_le hnotmem
    rw [sentinel_of_pos hk1] at hlt
    have hnum : k < numBands b (initindex fmin fr G b) fmax := by
      unfold numBands
      omega
    have hi : k < (ansiCenters b fmin fmax).length := hlen ▸ hnum
    rw [hu, getD_map_of_lt _ hi 0 0, ansiCenters_getD hnum]
    exact hlt

/-- Witness for C1 at b = 1 and limits [12, 20000]. -/
theorem C1_loop_stop_witness :
    ∃ n : ℕ, 1 ≤ n ∧
      (getANSIFrequencies 1 12 20000).1.length = n + 1 ∧
      (∀ k, k ≤ n → (getANSIFrequencies 1 12 20000).1.getD k 0 =
        ratioANSI G (initindex 12 fr G 1 + k) 1 * fr) ∧
      (20000 : ℝ) ≤ (getANSIFrequencies 1 12 20000).2.2.getD n 0 ∧
      (∀ k, 1 ≤ k → k < n → (getANSIFrequencies 1 12 20000).2.2.getD k 0 < 20000) :=
  C1_loop_stop 1 12 20000 (by norm_num) (by norm_num)

/-- IEC 61260-1-2014 third-octave center list, extended with 12.5, 16 and
20 Hz (source `_thirdOctave`). -/
def thirdOctave : List ℚ :=
  [12.5, 16, 20, 25, 31.5, 40, 50, 63, 80, 100, 125, 160, 200, 250, 315,
   400, 500, 630, 800, 1000, 1250, 1600, 2000, 2500, 3150, 4000, 5000,
   6300, 8000, 10000, 12500, 16000, 20000]

/-- IEC 61260-1-2014 one-octave center list, extended with 16 Hz
(source `_oneOctave`). -/
def oneOctave : List ℚ :=
  [16, 31.5, 63, 125, 250, 500, 1000, 2000, 4000, 8000, 16000]

/-- Source `normalizedFreq`: lookup in the dictionary with keys 1 and 3;
any other fraction raises (a KeyError, the spec's
UnsupportedFractionError), modelled as `none`.  The function takes no
limits argument, so its result cannot depend on one. -/
def normalizedFreq (fraction : ℚ) : Option (List ℚ) :=
  if fraction = 1 then some oneOctave
  else if fraction = 3 then some thirdOctave
  else none

/-- C7: `normalizedFreq 3` is exactly the fixed 33-entry third-octave list
from 12.5 to 20000 Hz and `normalizedFreq 1` exactly the fixed 11-entry
one-octave list from 16 to 16000 Hz; the source function has no limits
parameter, so no limits argument can influence the result. -/
theorem C7_normalized_lists :
    normalizedFreq 3 =
      some [12.5, 16, 20, 25, 31.5, 40, 50, 63, 80, 100, 125, 160, 200, 250,
        315, 400, 500, 630, 800, 1000, 1250, 1600, 2000, 2500, 3150, 4000,
        5000, 6300, 8000, 10000, 12500, 16000, 20000] ∧
    thirdOctave.length = 33 ∧
    normalizedFreq 1 =
      some [16, 31.5, 63, 125, 250, 500, 1000, 2000, 4000, 8000, 16000] ∧
    oneOctave.length = 11 :=
  ⟨rfl, rfl, rfl, rfl⟩

/-- C8: `normalizedFreq` fails (returns `none`, the embedding of the raised
UnsupportedFractionError / KeyError) for every fraction other than 1 and
3, and succeeds for 1 and 3. -/
theorem C8_unsupported_fraction :
    (∀ q : ℚ, q ≠ 1 → q ≠ 3 → normalizedFreq q = none) ∧
    (normalizedFreq 1).isSome = true ∧ (normalizedFreq 3).isSome = true := by
  refine ⟨?_, rfl, rfl⟩
  intro q h1 h3
  unfold normalizedFreq
  rw [if_neg h1, if_neg h3]

/-- Witness for C8 at the fractions 2 and 3/2. -/
theorem C8_unsupported_fraction_witness :
    normalizedFreq 2 = none ∧ normalizedFreq (3 / 2) = none :=
  ⟨C8_unsupported_fraction.1 2 (by norm_num) (by norm_num),
   C8_unsupported_fraction.1 (3 / 2) (by norm_num) (by norm_num)⟩

/-- Indices, in increasing order and counted from i, of the entries of the
list strictly above fs/2: the content of `np.where(freq_u > fs / 2)`. -/
noncomputable def indicesAbove (fs : ℝ) : List ℝ → ℕ → List ℕ
  | [], _ => []
  | u :: rest, i =>
    if fs / 2 < u then i :: indicesAbove fs rest (i + 1)
    else indicesAbove fs rest (i + 1)

/-- Removal from a list of the entries whose position, counted from i, is
listed in idx: the effect of `np.delete(xs, idx)`. -/
def deleteIdx : List ℝ → List ℕ → ℕ → List ℝ
  | [], _, _ => []
  | x :: rest, idx, i =>
    if i ∈ idx then deleteIdx rest idx (i + 1)
    else x :: deleteIdx rest idx (i + 1)

/-- Source `_deleteOuters`: compute the offending indices and delete them
from the three lists, but only when the Python guard `any(idx[0])` holds;
that guard is the builtin `any` applied to the index values themselves,
true exactly when some offending index is nonzero. -/
noncomputable def deleteOuters (freq freq_d freq_u : List ℝ) (fs : ℝ) :
    List ℝ × List ℝ × List ℝ :=
  if (indicesAbove fs freq_u 0).any (fun i => i != 0) then
    (deleteIdx freq (indicesAbove fs freq_u 0) 0,
     deleteIdx freq_d (indicesAbove fs freq_u 0) 0,
     deleteIdx freq_u (indicesAbove fs freq_u 0) 0)
  else (freq, freq_d, freq_u)

theorem deleteIdx_length_eq :
    ∀ (xs ys : List ℝ) (idx : List ℕ) (i : ℕ), xs.length = ys.length →
      (deleteIdx xs idx i).length = (deleteIdx ys idx i).length := by
  intro xs
  induction xs with
  | nil =>
    intro ys idx i h
    cases ys with
    | nil => rfl
    | cons y yrest => simp at h
  | cons x rest ih =>
    intro ys idx i h
    cases ys with
    | nil => simp at h
    | cons y yrest =>
      have h' : rest.length = yrest.length := by simpa using h
      simp only [deleteIdx]
      by_cases hm : i ∈ idx
      · rw [if_pos hm, if_pos hm]
        exact ih yrest idx (i + 1) h'
      · rw [if_neg hm, if_neg hm]
        simp [ih yrest idx (i + 1) h']

theorem deleteOuters_length_eq (freq freq_d freq_u : List ℝ) (fs : ℝ)
    (h1 : freq_d.length = freq.length) (h2 : freq_u.length = freq.length) :
    (deleteOuters freq freq_d freq_u fs).2.1.length =
      (deleteOuters freq freq_d freq_u fs).1.length ∧
    (deleteOuters freq freq_d freq_u fs).2.2.length =
      (deleteOuters freq freq_d freq_u fs).1.length := by
  unfold deleteOuters
  split
  · exact ⟨deleteIdx_length_eq _ _ _ _ h1, deleteIdx_length_eq _ _ _ _ h2⟩
  · exact ⟨h1, h2⟩

/-- Truncation toward zero: the effect of numpy `astype(int)` on a
finite float. -/
noncomputable def pyint (x : ℝ) : ℤ := if 0 ≤ x then ⌊x⌋ else ⌈x⌉

/-- Per-band downsampling factor of source `_downsamplingfactor`:
`int((fs / 2) / freq_u)` clamped by `max(min(factor, 50), 1)`. -/
noncomputable def downfactor (u fs : ℝ) : ℤ :=
  max (min (pyint (fs / 2 / u)) 50) 1

/-- Source `_downsamplingfactor` applied to the whole upper-edge list. -/
noncomputable def downsamplingfactor (freq : List ℝ) (fs : ℝ) : List ℤ :=
  freq.map (fun u => downfactor u fs)

/-- C2 evaluated at the failing input: the BandSet with the single band
(1000, 707, 5000) at fs = 8000 has its only upper edge 5000 above
fs/2 = 4000, yet `_deleteOuters` removes nothing: the offending index
list is [0] and the guard `any(idx[0])`, which tests the index values
instead of the emptiness of the list, is False. -/
theorem C2_nyquist_clip_bug :
    deleteOuters [1000] [707] [5000] 8000 = ([1000], [707], [5000]) ∧
    (8000 : ℝ) / 2 < 5000 := by
  have hidx : indicesAbove 8000 [(5000 : ℝ)] 0 = [0] := by
    unfold indicesAbove
    rw [if_pos (by norm_num : (8000 : ℝ) / 2 < 5000)]
    rw [show indicesAbove 8000 [] (0 + 1) = [] from by unfold indicesAbove; rfl]
  refine ⟨?_, by norm_num⟩
  unfold deleteOuters
  rw [hidx]
  rfl

/-- C3: the per-band decimation factor is `floor((fs/2)/freq_u)` clamped
to [1, 50]; in particular for fs = 44100 the band freq_u = 16000 yields
factor 1 and the band freq_u = 20 yields floor(22050/20) = 1102, clamped
to 50. -/
theorem C3_decimation_factor :
    (∀ (freq : List ℝ) (fs : ℝ) (i : ℕ), i < freq.length →
      0 < freq.getD i 0 → 0 ≤ fs →
      (downsamplingfactor freq fs).getD i 1 =
        max 1 (min 50 ⌊fs / 2 / freq.getD i 0⌋) ∧
      1 ≤ (downsamplingfactor freq fs).getD i 1 ∧
      (downsamplingfactor freq fs).getD i 1 ≤ 50) ∧
    (downsamplingfactor [16000] 44100).getD 0 1 = 1 ∧
    (downsamplingfactor [20] 44100).getD 0 1 = 50 ∧
    ⌊(44100 : ℝ) / 2 / 20⌋ = 1102 := by
  have hfl1 : ⌊(44100 : ℝ) / 2 / 16000⌋ = 1 := by
    rw [Int.floor_eq_iff]; norm_num
  have hfl2 : ⌊(44100 : ℝ) / 2 / 20⌋ = 1102 := by
    rw [Int.floor_eq_iff]; norm_num
  refine ⟨?_, ?_, ?_, hfl2⟩
  · intro freq fs i hi hu hfs
    have h1 : (downsamplingfactor freq fs).getD i 1 =
        downfactor (freq.getD i 0) fs := getD_map_of_lt _ hi 1 0
    have hx : 0 ≤ fs / 2 / freq.getD i 0 := by positivity
    refine ⟨?_, ?_, ?_⟩
    · rw [h1]
      unfold downfactor pyint
      rw [if_pos hx, max_comm, min_comm]
    · rw [h1]
      exact le_max_right _ _
    · rw [h1]
      exact max_le (min_le_right _ _) (by norm_num)
  · show downfactor 16000 44100 = 1
    unfold downfactor pyint
    rw [if_pos (by norm_num), hfl1]
    decide
  · show downfactor 20 44100 = 50
    unfold downfactor pyint
    rw [if_pos (by norm_num), hfl2]
    decide

/-- Witness for C3 at freq_u = [16000], fs = 44100, index 0. -/
theorem C3_decimation_factor_witness :
    (downsamplingfactor [16000] 44100).getD 0 1 =
      max 1 (min 50 ⌊(44100 : ℝ) / 2 / ([(16000 : ℝ)].getD 0 0)⌋) ∧
    1 ≤ (downsamplingfactor [16000] 44100).getD 0 1 ∧
    (downsamplingfactor [16000] 44100).getD 0 1 ≤ 50 :=
  C3_decimation_factor.1 [16000] 44100 0 (by norm_num)
    (by norm_num [List.getD_cons_zero]) (by norm_num)

/-- Arithmetic mean of a sample, as used by `np.std`. -/
noncomputable def np_mean (y : List ℝ) : ℝ := y.sum / y.length

/-- Population standard deviation `np.std`: root of the mean squared
deviation from the sample mean. -/
noncomputable def np_std (y : List ℝ) : ℝ :=
  Real.sqrt ((y.map (fun v => (v - np_mean y) ^ 2)).sum / y.length)

/-- The external scipy primitives the pipeline relies on, abstracted
exactly as the spec prescribes (black-box collaborators): a Butterworth
SOS designer taking the order and the two normalized corners, an SOS
filter application, and an anti-aliased decimator; α is the coefficient
type. -/
structure DSP (α : Type) where
  butter : ℕ → ℝ → ℝ → α
  sosfilt : α → List ℝ → List ℝ
  decimate : List ℝ → ℤ → List ℝ

/-- Source `_butterSOSfilter`: one SOS row per center frequency; the rows
visited by `enumerate(zip(freq_d, freq_u))` (hence up to the shorter of
the two edge lists) hold the Butterworth design at the band's corners
normalized by the decimated Nyquist `(fs / factor[idx]) / 2`; rows beyond
keep their initial placeholder. -/
noncomputable def butterSOSfilter {α : Type} [Inhabited α] (dsp : DSP α)
    (freq freq_d freq_u : List ℝ) (fs : ℝ) (order : ℕ) (factor : List ℤ) :
    List α :=
  (List.range freq.length).map (fun idx =>
    if idx < min freq_d.length freq_u.length then
      dsp.butter order
        (freq_d.getD idx 0 / (fs / (factor.getD idx 1 : ℝ) / 2))
        (freq_u.getD idx 0 / (fs / (factor.getD idx 1 : ℝ) / 2))
    else default)

/-- Source `_genfreqs`: ANSI band generation followed by Nyquist
clipping. -/
noncomputable def genfreqs (fmin fmax fraction fs : ℝ) :
    List ℝ × List ℝ × List ℝ :=
  deleteOuters (getANSIFrequencies fraction fmin fmax).1
    (getANSIFrequencies fraction fmin fmax).2.1
    (getANSIFrequencies fraction fmin fmax).2.2 fs

/-- Source `octaveFilter`: generate and clip the BandSet, plan the
per-band decimation, design the per-band SOS filters, then for each band
decimate the input signal, filter it, and convert the standard deviation
of the result to SPL re 2e-5. -/
noncomputable def octaveFilter {α : Type} [Inhabited α] (dsp : DSP α)
    (x : List ℝ) (fs fraction : ℝ) (order : ℕ) (fmin fmax : ℝ) :
    List ℝ × List ℝ :=
  ((List.range (genfreqs fmin fmax fraction fs).1.length).map (fun jj =>
      20 * Real.logb 10 (np_std
        (dsp.sosfilt
          ((butterSOSfilter dsp (genfreqs fmin fmax fraction fs).1
              (genfreqs fmin fmax fraction fs).2.1
              (genfreqs fmin fmax fraction fs).2.2 fs order
              (downsamplingfactor (genfreqs fmin fmax fraction fs).2.2 fs)).getD
            jj default)
          (dsp.decimate x
            ((downsamplingfactor (genfreqs fmin fmax fraction fs).2.2 fs).getD
              jj 1))) / 2e-5)),
   (genfreqs fmin fmax fraction fs).1)

theorem getD_range_map {β : Type} (g : ℕ → β) {n k : ℕ} (h : k < n) (d : β) :
    ((List.range n).map g).getD k d = g k := by
  rw [List.getD_eq_getElem?_getD, List.getElem?_map, List.getElem?_range h]
  rfl

theorem genfreqs_length (fmin fmax fraction fs : ℝ) :
    (genfreqs fmin fmax fraction fs).2.1.length =
      (genfreqs fmin fmax fraction fs).1.length ∧
    (genfreqs fmin fmax fraction fs).2.2.length =
      (genfreqs fmin fmax fraction fs).1.length := by
  unfold genfreqs
  apply deleteOuters_length_eq <;> simp [getANSIFrequencies]

/-- C4: for every band jj of the clipped BandSet, `octaveFilter` computes
`SPL[jj] = 20 * log10(std(y) / 2e-5)` where y is the band's SOS filter
applied to the input decimated by the band's factor, and the SPL list is
aligned index-by-index with the center-frequency list (same length, same
order). -/
theorem C4_spl_formula {α : Type} [Inhabited α] (dsp : DSP α) (x : List ℝ)
    (fs fraction : ℝ) (order : ℕ) (fmin fmax : ℝ) :
    (octaveFilter dsp x fs fraction order fmin fmax).2 =
      (genfreqs fmin fmax fraction fs).1 ∧
    (octaveFilter dsp x fs fraction order fmin fmax).1.length =
      (octaveFilter dsp x fs fraction order fmin fmax).2.length ∧
    (octaveFilter dsp x fs fraction order fmin fmax).1 =
      (List.range (genfreqs fmin fmax fraction fs).1.length).map (fun jj =>
        20 * Real.logb 10 (np_std
          (dsp.sosfilt
            (dsp.butter order
              ((genfreqs fmin fmax fraction fs).2.1.getD jj 0 /
                (fs / ((downsamplingfactor
                  (genfreqs fmin fmax fraction fs).2.2 fs).getD jj 1 : ℝ) / 2))
              ((genfreqs fmin fmax fraction fs).2.2.getD jj 0 /
                (fs / ((downsamplingfactor
                  (genfreqs fmin fmax fraction fs).2.2 fs).getD jj 1 : ℝ) / 2)))
            (dsp.decimate x
              ((downsamplingfactor
                (genfreqs fmin fmax fraction fs).2.2 fs).getD jj 1))) / 2e-5)) := by
  refine ⟨rfl, by simp [octaveFilter], ?_⟩
  show (List.range (genfreqs fmin fmax fraction fs).1.length).map _ =
    (List.range (genfreqs fmin fmax fraction fs).1.length).map _
  apply List.map_congr_left
  intro jj hjj
  rw [List.mem_range] at hjj
  have hmin : min (genfreqs fmin fmax fraction fs).2.1.length
      (genfreqs fmin fmax fraction fs).2.2.length =
      (genfreqs fmin fmax fraction fs).1.length := by
    rw [(genfreqs_length fmin fmax fraction fs).1,
      (genfreqs_length fmin fmax fraction fs).2, min_self]
  rw [show (butterSOSfilter dsp (genfreqs fmin fmax fraction fs).1
      (genfreqs fmin fmax fraction fs).2.1
      (genfreqs fmin fmax fraction fs).2.2 fs order
      (downsamplingfactor (genfreqs fmin fmax fraction fs).2.2 fs)).getD
        jj default =
      dsp.butter order
        ((genfreqs fmin fmax fraction fs).2.1.getD jj 0 /
          (fs / ((downsamplingfactor
            (genfreqs fmin fmax fraction fs).2.2 fs).getD jj 1 : ℝ) / 2))
        ((genfreqs fmin fmax fraction fs).2.2.getD jj 0 /
          (fs / ((downsamplingfactor
            (genfreqs fmin fmax fraction fs).2.2 fs).getD jj 1 : ℝ) / 2))
    from by
      unfold butterSOSfilter
      rw [getD_range_map _ hjj, if_pos (hmin ▸ hjj)]]

/-- Identity stand-ins for the external collaborators, used to
instantiate the pipeline theorems on concrete inputs. -/
def idDSP : DSP Unit :=
  ⟨fun _ _ _ => (), fun _ y => y, fun y _ => y⟩

/-- Witness for C4 at the one-sample signal [0] with identity
collaborators, fs = 8, b = 1, order 6, limits [12, 20000]. -/
theorem C4_spl_formula_witness :
    (octaveFilter idDSP [0] 8 1 6 12 20000).2 = (genfreqs 12 20000 1 8).1 ∧
    (octaveFilter idDSP [0] 8 1 6 12 20000).1.length =
      (octaveFilter idDSP [0] 8 1 6 12 20000).2.length ∧
    (octaveFilter idDSP [0] 8 1 6 12 20000).1 =
      (List.range (genfreqs 12 20000 1 8).1.length).map (fun jj =>
        20 * Real.logb 10 (np_std
          (idDSP.sosfilt
            (idDSP.butter 6
              ((genfreqs 12 20000 1 8).2.1.getD jj 0 /
                (8 / ((downsamplingfactor
                  (genfreqs 12 20000 1 8).2.2 8).getD jj 1 : ℝ) / 2))
              ((genfreqs 12 20000 1 8).2.2.getD jj 0 /
                (8 / ((downsamplingfactor
                  (genfreqs 12 20000 1 8).2.2 8).getD jj 1 : ℝ) / 2)))
            (idDSP.decimate [0]
              ((downsamplingfactor
                (genfreqs 12 20000 1 8).2.2 8).getD jj 1))) / 2e-5)) :=
  C4_spl_formula idDSP [0] 8 1 6 12 20000

theorem np_std_of_zero (y : List ℝ) (h : ∀ v ∈ y, v = 0) : np_std y = 0 := by
  have hsum : y.sum = 0 := List.sum_eq_zero h
  have hmean : np_mean y = 0 := by
    unfold np_mean
    rw [hsum]
    simp
  have hsq : (y.map (fun v => (v - np_mean y) ^ 2)).sum = 0 := by
    apply List.sum_eq_zero
    intro v hv
    rw [List.mem_map] at hv
    obtain ⟨w, hw, rfl⟩ := hv
    rw [h w hw, hmean]
    ring
  unfold np_std
  rw [hsq]
  simp

/-- C9: on an all-zero input signal, provided the external decimator and
SOS filter map all-zero signals to all-zero signals (they are LTI
primitives), every band's filtered output has standard deviation 0 and
every band's SPL is the same value `20 * log10(0 / 2e-5)` — uniformly the
same outcome (numpy renders it as -inf) across all bands. -/
theorem C9_zero_signal {α : Type} [Inhabited α] (dsp : DSP α) (x : List ℝ)
    (fs fraction : ℝ) (order : ℕ) (fmin fmax : ℝ)
    (hx : ∀ v ∈ x, v = 0)
    (hdec : ∀ (y : List ℝ) (k : ℤ), (∀ v ∈ y, v = 0) →
      ∀ v ∈ dsp.decimate y k, v = 0)
    (hsos : ∀ (s : α) (y : List ℝ), (∀ v ∈ y, v = 0) →
      ∀ v ∈ dsp.sosfilt s y, v = 0) :
    (∀ (s : α) (k : ℤ), np_std (dsp.sosfilt s (dsp.decimate x k)) = 0) ∧
    (octaveFilter dsp x fs fraction order fmin fmax).1 =
      List.replicate (octaveFilter dsp x fs fraction order fmin fmax).1.length
        (20 * Real.logb 10 (0 / 2e-5)) := by
  have hstd : ∀ (s : α) (k : ℤ),
      np_std (dsp.sosfilt s (dsp.decimate x k)) = 0 := by
    intro s k
    exact np_std_of_zero _ (hsos s _ (hdec x k hx))
  refine ⟨hstd, ?_⟩
  apply List.eq_replicate_iff.2
  refine ⟨rfl, ?_⟩
  intro v hv
  rw [show (octaveFilter dsp x fs fraction order fmin fmax).1 =
    (List.range (genfreqs fmin fmax fraction fs).1.length).map _ from rfl] at hv
  rw [List.mem_map] at hv
  obtain ⟨jj, hjj, rfl⟩ := hv
  rw [hstd]

/-- Witness for C9 at the all-zero two-sample signal with identity
collaborators, fs = 8, b = 1, order 6, limits [12, 20000]. -/
theorem C9_zero_signal_witness :
    (∀ (s : Unit) (k : ℤ), np_std (idDSP.sosfilt s (idDSP.decimate [0, 0] k)) = 0) ∧
    (octaveFilter idDSP [0, 0] 8 1 6 12 20000).1 =
      List.replicate (octaveFilter idDSP [0, 0] 8 1 6 12 20000).1.length
        (20 * Real.logb 10 (0 / 2e-5)) :=
  C9_zero_signal idDSP [0, 0] 8 1 6 12 20000
    (by intro v hv; simp at hv; exact hv)
    (fun y k h => h) (fun s y h => h)

end PyOctave
